import Mathlib

/-!
Shallow embedding of the query-service and graph-assembly layer of the
movies web service (`src/main.rs`).  The datastore driver is an external
capability: row streams are passed in as explicit lists whose elements may
be errors (a driver fault on `rows.next()`), and column access on a row is
modelled by `Except`-valued fields (a `row.get` decode failure).
-/

/-- Errors surfaced by the datastore driver or by row decoding
(`QueryError` / `DecodeError` of the spec; in the code both are `neo4rs`
errors propagated with `?`). -/
inductive DbError where
  | driver (msg : String)
  | decode (column : String)
deriving DecidableEq, Repr

/-- One node of the browse subgraph (struct `Node` in `main.rs`):
a title and a label discriminating `"movie"` from `"actor"`. -/
structure Node where
  title : String
  label : String
deriving DecidableEq, Repr

/-- One link of the browse subgraph (struct `Link` in `main.rs`):
a pair of indices into the node list. -/
structure Link where
  source : Nat
  target : Nat
deriving DecidableEq, Repr

/-- The browse response (struct `BrowseResponse` in `main.rs`). -/
structure BrowseResponse where
  nodes : List Node
  links : List Link
deriving DecidableEq, Repr

/-- The browse request (struct `Browse` in `main.rs`): an optional limit,
`limit: Option<i32>` in the source. -/
structure Browse where
  limit : Option Int
deriving DecidableEq, Repr

/-- `browse.limit.unwrap_or(100)` from `Service::graph`. -/
def Browse.limitValue (b : Browse) : Int :=
  b.limit.getD 100

/-- The mutable state of the assembly loop in `Service::graph`:
the `actors: HashMap<String, usize>` dedup map (modelled as an association
list whose most recent binding wins, which agrees with the map because a
key is only ever inserted once), plus the `nodes` and `links` vectors. -/
structure AsmState where
  actors : List (String × Nat)
  nodes : List Node
  links : List Link
deriving Repr

/-- The inner `for actor in cast` loop of `Service::graph`: for each cast
name in order, reuse the mapped index if the name is already a key of
`actors`, otherwise append a fresh `"actor"` node and record its index;
in both cases append a link `{source, target}`. -/
def processCast (target : Nat) (cast : List String) (st : AsmState) : AsmState :=
  match cast with
  | [] => st
  | actor :: rest =>
    match st.actors.lookup actor with
    | some source =>
      processCast target rest { st with links := st.links ++ [⟨source, target⟩] }
    | none =>
      let source := st.nodes.length
      processCast target rest
        { actors := (actor, source) :: st.actors
          nodes := st.nodes ++ [⟨actor, "actor"⟩]
          links := st.links ++ [⟨source, target⟩] }

/-- The outer `while let Some(row) = rows.next()` loop of `Service::graph`,
specialised to pure rows (a decoded `(movie, cast)` pair per row): append a
fresh `"movie"` node for the row, record its index as `target`, then run
the cast loop. -/
def processRows (rows : List (String × List String)) (st : AsmState) : AsmState :=
  match rows with
  | [] => st
  | (movie, cast) :: rest =>
    let target := st.nodes.length
    let st1 := { st with nodes := st.nodes ++ [⟨movie, "movie"⟩] }
    processRows rest (processCast target cast st1)

/-- The pure graph assembly of `Service::graph` on an already-decoded row
stream: start from empty state, fold the rows, return nodes and links. -/
def assemble (rows : List (String × List String)) : BrowseResponse :=
  let st := processRows rows ⟨[], [], []⟩
  ⟨st.nodes, st.links⟩

/-- A raw result row of the `GRAPH` query as the loop body sees it:
the outcomes of `row.get::<String>("movie")` and
`row.get::<Vec<&str>>("cast")` (column access may fail to decode). -/
structure RawRow where
  movie : Except DbError String
  cast : Except DbError (List String)

/-- Is this stream element a failure point: either `rows.next()` itself
errored, or one of the two column reads on the row will fail? -/
def rowFails : Except DbError RawRow → Bool
  | .error _ => true
  | .ok r => !r.movie.isOk || !r.cast.isOk

/-- The fallible assembly loop of `Service::graph`, faithful to the `?`
operators: a driver fault on `rows.next()` or a failing `row.get` aborts
the whole loop with that error. -/
def graphLoop (stream : List (Except DbError RawRow)) (st : AsmState) :
    Except DbError AsmState :=
  match stream with
  | [] => .ok st
  | .error e :: _ => .error e
  | .ok row :: rest =>
    match row.movie with
    | .error e => .error e
    | .ok movie =>
      let target := st.nodes.length
      let st1 := { st with nodes := st.nodes ++ [⟨movie, "movie"⟩] }
      match row.cast with
      | .error e => .error e
      | .ok cast => graphLoop rest (processCast target cast st1)

/-- `Service::graph`: compute the limit (`browse.limit.unwrap_or(100)`),
run the `GRAPH` query with it (the datastore capability `query` maps the
bound limit to a row stream), consume the stream, and package the final
state as a `BrowseResponse`.  Any stream or decode failure is returned as
an error; no partial response exists in that case. -/
def Service.graph (browse : Browse) (query : Int → List (Except DbError RawRow)) :
    Except DbError BrowseResponse :=
  let limit := browse.limitValue
  match graphLoop (query limit) ⟨[], [], []⟩ with
  | .error e => .error e
  | .ok st => .ok ⟨st.nodes, st.links⟩

/-- An `ok` stream: every `rows.next()` succeeds and both column reads on
every row succeed, yielding the given decoded pairs. -/
def okStream (rows : List (String × List String)) : List (Except DbError RawRow) :=
  rows.map fun r => .ok ⟨.ok r.1, .ok r.2⟩

/-- A cast member record (struct `Person` in `main.rs`). -/
structure Person where
  job : String
  role : Option (List String)
  name : String
deriving DecidableEq, Repr

/-- The single-entity record (struct `Movie` in `main.rs`); every field is
optional. -/
structure Movie where
  released : Option Nat
  title : Option String
  tagline : Option String
  votes : Option Nat
  cast : Option (List Person)
deriving DecidableEq, Repr

/-- `Movie::default()` from `#[derive(Default)]`: every field empty. -/
def Movie.defaultValue : Movie :=
  ⟨none, none, none, none, none⟩

/-- `Service::movie`: pull at most one row from the `FIND_MOVIE` query
(`rows.next().await?` gives an optional row, or a driver error), decode it
with `r.to::<Movie>()` (the driver capability `toMovie`), `transpose()?`
the optional result, and fall back to `Movie::default()` when no row
matched. -/
def Service.movie {Row : Type} (next : Except DbError (Option Row))
    (toMovie : Row → Except DbError Movie) : Except DbError Movie :=
  match next with
  | .error e => .error e
  | .ok row =>
    match row.map toMovie with
    | none => .ok Movie.defaultValue
    | some (.error e) => .error e
    | some (.ok m) => .ok m

/-- Cypher `split(s, sep)` for a one-character separator, on the
character list of the string: maximal runs between separators, with empty
segments kept (so the result is never the empty list). -/
def splitOnChar (sep : Char) : List Char → List (List Char)
  | [] => [[]]
  | c :: rest =>
    if c = sep then [] :: splitOnChar sep rest
    else
      match splitOnChar sep rest with
      | [] => [[c]]
      | seg :: segs => (c :: seg) :: segs

/-- The classifier derivation from the `FIND_MOVIE` query text:
`head(split(toLower(type(r)),'_'))` — lower-case the relationship type
character-wise, split on underscore, take the first segment.  A pure,
locale-independent transform. -/
def classifier (relType : String) : String :=
  ⟨((splitOnChar '_' (relType.toList.map Char.toLower)).headD [])⟩

/-- The vote response (struct `Voted` in `main.rs`). -/
structure Voted where
  updates : Nat
deriving DecidableEq, Repr

/-- The votes table of the datastore: for each title, `none` when no movie
with that title exists, otherwise `some v` where `v` is the movie's
optional `votes` property. -/
def DbVotes : Type :=
  String → Option (Option Nat)

/-- The effect of the `VOTE_IN_MOVIE` statement on the datastore:
`MATCH (movie:Movie {title:$title}) SET movie.votes = coalesce(movie.votes, 0) + 1`.
A matching movie gets its counter coalesced to 0 and incremented; a
missing title changes nothing. -/
def voteQuery (db : DbVotes) (title : String) : DbVotes :=
  fun t => if t = title then (db t).map (fun votes => some (votes.getD 0 + 1)) else db t

/-- `Service::vote`: run the statement (the driver may fault, modelled by
`fault`), discard its result, and on success return `Voted { updates: 1 }`
unconditionally. -/
def Service.vote (db : DbVotes) (title : String) (fault : Option DbError) :
    Except DbError (DbVotes × Voted) :=
  match fault with
  | some e => .error e
  | none => .ok (voteQuery db title, ⟨1⟩)

/-- The loop invariant of the assembly loop in `Service::graph`: the dedup
map registers exactly the `"actor"` nodes (with their positions), its keys
are distinct, every link's source is a registered actor index, every
link's target is in bounds, and the actor node titles are distinct. -/
structure AsmInv (st : AsmState) : Prop where
  reg : ∀ p ∈ st.actors, st.nodes[p.2]? = some ⟨p.1, "actor"⟩
  keysNodup : (st.actors.map Prod.fst).Nodup
  actorNode : ∀ i : Nat, ∀ n : Node,
    st.nodes[i]? = some n → n.label = "actor" → (n.title, i) ∈ st.actors
  linkSrc : ∀ l ∈ st.links, ∃ a, (a, l.source) ∈ st.actors
  linkTgt : ∀ l ∈ st.links, l.target < st.nodes.length
  actorTitles : ((st.nodes.filter fun n => n.label == "actor").map Node.title).Nodup

theorem lookup_some_mem {α β : Type} [BEq α] [LawfulBEq α] {l : List (α × β)} {a : α} {v : β}
    (h : l.lookup a = some v) : (a, v) ∈ l := by
  induction l with
  | nil => simp [List.lookup] at h
  | cons p rest ih =>
    obtain ⟨k, b⟩ := p
    rw [List.lookup] at h
    split at h
    · rename_i hbeq
      cases h
      simp [eq_of_beq hbeq]
    · exact List.mem_cons_of_mem _ (ih h)

theorem lookup_none_not_mem {α β : Type} [BEq α] [LawfulBEq α] {l : List (α × β)} {a : α}
    (h : l.lookup a = none) : a ∉ l.map Prod.fst := by
  induction l with
  | nil => simp
  | cons p rest ih =>
    obtain ⟨k, b⟩ := p
    rw [List.lookup] at h
    split at h
    · exact absurd h (by simp)
    · rename_i hbeq
      simp only [List.map_cons, List.mem_cons]
      rintro (rfl | hm)
      · simp at hbeq
      · exact ih h hm

theorem keys_nodup_functional {α β : Type} {l : List (α × β)}
    (hn : (l.map Prod.fst).Nodup) {a : α} {i j : β}
    (hi : (a, i) ∈ l) (hj : (a, j) ∈ l) : i = j := by
  induction l with
  | nil => simp at hi
  | cons p rest ih =>
    simp only [List.map_cons, List.nodup_cons] at hn
    rcases List.mem_cons.mp hi with rfl | hi' <;>
      rcases List.mem_cons.mp hj with h | hj'
    · exact congrArg Prod.snd h.symm
    · exact absurd (List.mem_map_of_mem Prod.fst hj') (by simpa using hn.1)
    · cases h
      exact absurd (List.mem_map_of_mem Prod.fst hi') (by simpa using hn.1)
    · exact ih hn.2 hi' hj'

theorem processCast_links_length (target : Nat) (cast : List String) (st : AsmState) :
    (processCast target cast st).links.length = st.links.length + cast.length := by
  induction cast generalizing st with
  | nil => rfl
  | cons a rest ih =>
    rw [processCast]
    cases hl : st.actors.lookup a with
    | some source =>
      simp only [hl]
      rw [ih]
      simp
      omega
    | none =>
      simp only [hl]
      rw [ih]
      simp
      omega

theorem processCast_balance (target : Nat) (cast : List String) (st : AsmState) :
    (processCast target cast st).nodes.length + st.actors.length
      = st.nodes.length + (processCast target cast st).actors.length := by
  induction cast generalizing st with
  | nil => rfl
  | cons a rest ih =>
    rw [processCast]
    cases hl : st.actors.lookup a with
    | some source =>
      simp only [hl]
      exact ih _
    | none =>
      simp only [hl]
      have h := ih { actors := (a, st.nodes.length) :: st.actors
                     nodes := st.nodes ++ [⟨a, "actor"⟩]
                     links := st.links ++ [⟨st.nodes.length, target⟩] }
      simp at h
      omega

theorem processCast_keys_nodup (target : Nat) (cast : List String) (st : AsmState)
    (h : (st.actors.map Prod.fst).Nodup) :
    ((processCast target cast st).actors.map Prod.fst).Nodup := by
  induction cast generalizing st with
  | nil => exact h
  | cons a rest ih =>
    rw [processCast]
    cases hl : st.actors.lookup a with
    | some source =>
      simp only [hl]
      exact ih { st with links := st.links ++ [⟨source, target⟩] } h
    | none =>
      simp only [hl]
      exact ih _ (by simp only [List.map_cons, List.nodup_cons]
                     exact ⟨lookup_none_not_mem hl, h⟩)

theorem processCast_keys_toFinset (target : Nat) (cast : List String) (st : AsmState) :
    ((processCast target cast st).actors.map Prod.fst).toFinset
      = (st.actors.map Prod.fst).toFinset ∪ cast.toFinset := by
  induction cast generalizing st with
  | nil => simp [processCast]
  | cons a rest ih =>
    rw [processCast]
    cases hl : st.actors.lookup a with
    | some source =>
      simp only [hl]
      rw [ih { st with links := st.links ++ [⟨source, target⟩] }]
      have ha : a ∈ st.actors.map Prod.fst :=
        List.mem_map_of_mem Prod.fst (lookup_some_mem hl)
      simp only [List.mem_map] at ha
      ext x
      simp only [Finset.mem_union, List.mem_toFinset, List.mem_cons, List.mem_map]
      constructor
      · rintro (hx | hx)
        · exact Or.inl hx
        · exact Or.inr (Or.inr hx)
      · rintro (hx | rfl | hx)
        · exact Or.inl hx
        · exact Or.inl ha
        · exact Or.inr hx
    | none =>
      simp only [hl]
      rw [ih { actors := (a, st.nodes.length) :: st.actors
               nodes := st.nodes ++ [⟨a, "actor"⟩]
               links := st.links ++ [⟨st.nodes.length, target⟩] }]
      ext x
      simp only [Finset.mem_union, List.mem_toFinset, List.mem_cons, List.map_cons]
      tauto

theorem processCast_movie_count (target : Nat) (cast : List String) (st : AsmState) :
    ((processCast target cast st).nodes.filter fun n => n.label == "movie").length
      = (st.nodes.filter fun n => n.label == "movie").length := by
  induction cast generalizing st with
  | nil => rfl
  | cons a rest ih =>
    rw [processCast]
    cases hl : st.actors.lookup a with
    | some source =>
      simp only [hl]
      exact ih { st with links := st.links ++ [⟨source, target⟩] }
    | none =>
      simp only [hl]
      rw [ih { actors := (a, st.nodes.length) :: st.actors
               nodes := st.nodes ++ [⟨a, "actor"⟩]
               links := st.links ++ [⟨st.nodes.length, target⟩] }]
      simp [List.filter_append]

theorem processRows_links_length (rows : List (String × List String)) (st : AsmState) :
    (processRows rows st).links.length
      = st.links.length + (rows.map fun r => r.2.length).sum := by
  induction rows generalizing st with
  | nil => simp [processRows]
  | cons row rest ih =>
    obtain ⟨movie, cast⟩ := row
    rw [processRows, ih, processCast_links_length]
    simp
    omega

theorem processRows_balance (rows : List (String × List String)) (st : AsmState) :
    (processRows rows st).nodes.length + st.actors.length
      = st.nodes.length + rows.length + (processRows rows st).actors.length := by
  induction rows generalizing st with
  | nil => simp [processRows]
  | cons row rest ih =>
    obtain ⟨movie, cast⟩ := row
    rw [processRows]
    have hpc := processCast_balance st.nodes.length cast
      { st with nodes := st.nodes ++ [⟨movie, "movie"⟩] }
    have hr := ih (processCast st.nodes.length cast
      { st with nodes := st.nodes ++ [⟨movie, "movie"⟩] })
    simp at hpc hr ⊢
    omega

theorem processRows_keys_nodup (rows : List (String × List String)) (st : AsmState)
    (h : (st.actors.map Prod.fst).Nodup) :
    ((processRows rows st).actors.map Prod.fst).Nodup := by
  induction rows generalizing st with
  | nil => exact h
  | cons row rest ih =>
    obtain ⟨movie, cast⟩ := row
    rw [processRows]
    exact ih _ (processCast_keys_nodup _ _ _ h)

theorem processRows_keys_toFinset (rows : List (String × List String)) (st : AsmState) :
    ((processRows rows st).actors.map Prod.fst).toFinset
      = (st.actors.map Prod.fst).toFinset ∪ (rows.map fun r => r.2).flatten.toFinset := by
  induction rows generalizing st with
  | nil => simp [processRows]
  | cons row rest ih =>
    obtain ⟨movie, cast⟩ := row
    rw [processRows, ih, processCast_keys_toFinset]
    simp [List.toFinset_append, Finset.union_assoc]

theorem processRows_movie_count (rows : List (String × List String)) (st : AsmState) :
    ((processRows rows st).nodes.filter fun n => n.label == "movie").length
      = (st.nodes.filter fun n => n.label == "movie").length + rows.length := by
  induction rows generalizing st with
  | nil => simp [processRows]
  | cons row rest ih =>
    obtain ⟨movie, cast⟩ := row
    rw [processRows, ih, processCast_movie_count]
    simp [List.filter_append]
    omega

theorem graphLoop_okStream (rows : List (String × List String)) (st : AsmState) :
    graphLoop (okStream rows) st = .ok (processRows rows st) := by
  induction rows generalizing st with
  | nil => rfl
  | cons row rest ih =>
    obtain ⟨m, c⟩ := row
    exact ih _

theorem Service.graph_okStream (browse : Browse) (rows : List (String × List String)) :
    Service.graph browse (fun _ => okStream rows) = .ok (assemble rows) := by
  show (match graphLoop (okStream rows) ⟨[], [], []⟩ with
    | Except.error e => Except.error e
    | Except.ok st => Except.ok (⟨st.nodes, st.links⟩ : BrowseResponse)) = _
  rw [graphLoop_okStream]
  rfl

/-- Claim C1: for every stream of `N` decoded movie rows, each carrying an
ordered cast-name collection, the assembly in `Service::graph` produces
exactly `N` plus the number of distinct cast names nodes, and a number of
links equal to the sum of the cast-collection lengths. -/
theorem graph_counts (rows : List (String × List String)) :
    (assemble rows).nodes.length
        = rows.length + ((rows.map fun r => r.2).flatten).dedup.length
      ∧ (assemble rows).links.length = (rows.map fun r => r.2.length).sum := by
  constructor
  · have hb := processRows_balance rows ⟨[], [], []⟩
    have hn := processRows_keys_nodup rows ⟨[], [], []⟩ (by simp)
    have hf := processRows_keys_toFinset rows ⟨[], [], []⟩
    simp only [List.length_nil, Nat.add_zero, Nat.zero_add] at hb
    simp only [List.map_nil, List.toFinset_nil, Finset.empty_union] at hf
    have hcard := List.toFinset_card_of_nodup hn
    rw [hf, List.card_toFinset] at hcard
    have hk : ((processRows rows ⟨[], [], []⟩).actors.map Prod.fst).length
        = (processRows rows ⟨[], [], []⟩).actors.length := List.length_map _ _
    show (processRows rows ⟨[], [], []⟩).nodes.length = _
    omega
  · have h := processRows_links_length rows ⟨[], [], []⟩
    simpa using h

/-- Claim C5: movie nodes are never deduplicated — the assembly produces
exactly one `"movie"`-labelled node per row, even when the same movie
title occurs in two different rows. -/
theorem graph_movie_count (rows : List (String × List String)) :
    ((assemble rows).nodes.filter fun n => n.label == "movie").length = rows.length := by
  have h := processRows_movie_count rows ⟨[], [], []⟩
  simpa using h

theorem processCast_inv (target : Nat) (cast : List String) (st : AsmState)
    (inv : AsmInv st) (ht : target < st.nodes.length) :
    AsmInv (processCast target cast st) := by
  induction cast generalizing st with
  | nil => exact inv
  | cons a rest ih =>
    rw [processCast]
    cases hl : st.actors.lookup a with
    | some source =>
      simp only [hl]
      refine ih _ ?_ ht
      refine ⟨inv.reg, inv.keysNodup, inv.actorNode, ?_, ?_, inv.actorTitles⟩
      · intro l hml
        rcases List.mem_append.mp hml with hold | hnew
        · exact inv.linkSrc l hold
        · simp at hnew
          subst hnew
          exact ⟨a, lookup_some_mem hl⟩
      · intro l hml
        rcases List.mem_append.mp hml with hold | hnew
        · exact inv.linkTgt l hold
        · simp at hnew
          subst hnew
          exact ht
    | none =>
      simp only [hl]
      have hnotkey := lookup_none_not_mem hl
      have hnotitle : a ∉ (st.nodes.filter fun n => n.label == "actor").map Node.title := by
        intro hmem
        obtain ⟨nd, hndmem, hndtitle⟩ := List.mem_map.mp hmem
        obtain ⟨hndnodes, hndlabel⟩ := List.mem_filter.mp hndmem
        obtain ⟨i, hi⟩ := List.getElem?_of_mem hndnodes
        have := inv.actorNode i nd hi (by simpa using hndlabel)
        rw [hndtitle] at this
        exact hnotkey (List.mem_map_of_mem Prod.fst this)
      refine ih _ ?_ (by simp; omega)
      constructor
      · intro p hp
        dsimp only at hp ⊢
        rcases List.mem_cons.mp hp with rfl | hp'
        · exact List.getElem?_concat_length _ _
        · have hold := inv.reg p hp'
          have hlt : p.2 < st.nodes.length := (List.getElem?_eq_some.mp hold).1
          rw [List.getElem?_append, if_pos hlt]
          exact hold
      · simp only [List.map_cons, List.nodup_cons]
        exact ⟨hnotkey, inv.keysNodup⟩
      · intro i n hi hlab
        dsimp only at hi ⊢
        by_cases hlt : i < st.nodes.length
        · rw [List.getElem?_append, if_pos hlt] at hi
          exact List.mem_cons_of_mem _ (inv.actorNode i n hi hlab)
        · rw [List.getElem?_append, if_neg hlt] at hi
          have hzero : i - st.nodes.length = 0 := by
            by_contra hne
            rw [List.getElem?_eq_none (by simp; omega)] at hi
            exact Option.noConfusion hi
          rw [hzero] at hi
          simp at hi
          subst hi
          have : i = st.nodes.length := by omega
          subst this
          exact List.mem_cons_self _ _
      · intro l hml
        dsimp only at hml ⊢
        rcases List.mem_append.mp hml with hold | hnew
        · obtain ⟨a', ha'⟩ := inv.linkSrc l hold
          exact ⟨a', List.mem_cons_of_mem _ ha'⟩
        · simp at hnew
          subst hnew
          exact ⟨a, List.mem_cons_self _ _⟩
      · intro l hml
        dsimp only at hml ⊢
        rcases List.mem_append.mp hml with hold | hnew
        · have := inv.linkTgt l hold
          simp only [List.length_append, List.length_cons, List.length_nil]
          omega
        · simp at hnew
          subst hnew
          simp only [List.length_append, List.length_cons, List.length_nil]
          omega
      · dsimp only
        rw [List.filter_append, List.map_append]
        simp only [List.filter_cons, List.filter_nil]
        rw [List.nodup_append]
        refine ⟨inv.actorTitles, by simp, ?_⟩
        intro x hx hx'
        simp at hx'
        subst hx'
        exact hnotitle hx

theorem processRows_inv (rows : List (String × List String)) (st : AsmState)
    (inv : AsmInv st) : AsmInv (processRows rows st) := by
  induction rows generalizing st with
  | nil => exact inv
  | cons row rest ih =>
    obtain ⟨movie, cast⟩ := row
    rw [processRows]
    refine ih _ (processCast_inv _ _ _ ?_ (by simp))
    constructor
    · intro p hp
      dsimp only at hp ⊢
      have hold := inv.reg p hp
      have hlt : p.2 < st.nodes.length := (List.getElem?_eq_some.mp hold).1
      rw [List.getElem?_append, if_pos hlt]
      exact hold
    · exact inv.keysNodup
    · intro i n hi hlab
      dsimp only at hi ⊢
      by_cases hlt : i < st.nodes.length
      · rw [List.getElem?_append, if_pos hlt] at hi
        exact inv.actorNode i n hi hlab
      · rw [List.getElem?_append, if_neg hlt] at hi
        have hzero : i - st.nodes.length = 0 := by
          by_contra hne
          rw [List.getElem?_eq_none (by simp; omega)] at hi
          exact Option.noConfusion hi
        rw [hzero] at hi
        simp at hi
        subst hi
        simp at hlab
    · intro l hml
      exact inv.linkSrc l hml
    · intro l hml
      dsimp only at hml ⊢
      have := inv.linkTgt l hml
      simp only [List.length_append, List.length_cons, List.length_nil]
      omega
    · dsimp only
      rw [List.filter_append]
      simp only [List.filter_cons, List.filter_nil]
      simpa using inv.actorTitles

theorem assemble_inv (rows : List (String × List String)) :
    AsmInv { actors := (processRows rows ⟨[], [], []⟩).actors
             nodes := (assemble rows).nodes
             links := (assemble rows).links } := by
  have h := processRows_inv rows ⟨[], [], []⟩
    ⟨by simp, by simp, by intro i n hi _; simp at hi, by simp, by simp, by simp⟩
  exact h

/-- Claim C3: in every assembled browse response, every index referenced by
a link (source and target) is a valid position in the node sequence. -/
theorem graph_link_indices_valid (rows : List (String × List String))
    (l : Link) (hl : l ∈ (assemble rows).links) :
    l.source < (assemble rows).nodes.length ∧ l.target < (assemble rows).nodes.length := by
  have inv := assemble_inv rows
  refine ⟨?_, inv.linkTgt l hl⟩
  obtain ⟨a, ha⟩ := inv.linkSrc l hl
  exact (List.getElem?_eq_some.mp (inv.reg _ ha)).1

/-- Claim C2: actor deduplication — no two `"actor"` nodes of one response
share a title (exact, case-sensitive key), and any two links whose source
nodes carry the same title reference the same source index. -/
theorem graph_actor_dedup (rows : List (String × List String)) :
    ((((assemble rows).nodes.filter fun n => n.label == "actor").map Node.title)).Nodup
    ∧ ∀ l1 ∈ (assemble rows).links, ∀ l2 ∈ (assemble rows).links,
        ((assemble rows).nodes[l1.source]?).map Node.title
          = ((assemble rows).nodes[l2.source]?).map Node.title
        → l1.source = l2.source := by
  have inv := assemble_inv rows
  refine ⟨inv.actorTitles, ?_⟩
  intro l1 h1 l2 h2 htitle
  obtain ⟨a1, ha1⟩ := inv.linkSrc l1 h1
  obtain ⟨a2, ha2⟩ := inv.linkSrc l2 h2
  rw [inv.reg _ ha1, inv.reg _ ha2] at htitle
  simp at htitle
  subst htitle
  exact keys_nodup_functional inv.keysNodup ha1 ha2

/-- Claim C4: on the rows `("M1", ["A", "B"])` and `("M2", ["B"])` with
limit 10, `Service::graph` returns exactly the nodes `M1/movie, A/actor,
B/actor, M2/movie` at indices 0..3 and the links `(1,0), (2,0), (2,3)`,
in those orders. -/
theorem graph_example :
    Service.graph ⟨some 10⟩ (fun _ => okStream [("M1", ["A", "B"]), ("M2", ["B"])]) =
      .ok ⟨[⟨"M1", "movie"⟩, ⟨"A", "actor"⟩, ⟨"B", "actor"⟩, ⟨"M2", "movie"⟩],
           [⟨1, 0⟩, ⟨2, 0⟩, ⟨2, 3⟩]⟩ := by
  rfl

/-- Claim C6: `Service::movie` on a title with no backing row (the query
yields no row) returns successfully with the default record, all of whose
fields are empty; it neither errors nor raises a not-found condition. -/
theorem movie_not_found_returns_default {Row : Type}
    (toMovie : Row → Except DbError Movie) :
    Service.movie (.ok (none : Option Row)) toMovie = .ok Movie.defaultValue
    ∧ Movie.defaultValue.released = none ∧ Movie.defaultValue.title = none
    ∧ Movie.defaultValue.tagline = none ∧ Movie.defaultValue.votes = none
    ∧ Movie.defaultValue.cast = none :=
  ⟨rfl, rfl, rfl, rfl, rfl, rfl⟩

/-- Claim C7 counterexample: the limit parameter is not a positive
integer — the request with `limit = some (-3)` is representable, the
non-positive value `-3` is used as the limit unchanged, and the service
does not reject it. -/
theorem limit_negative_accepted :
    Browse.limitValue ⟨some (-3)⟩ = -3
    ∧ ¬(0 < Browse.limitValue ⟨some (-3)⟩)
    ∧ Service.graph ⟨some (-3)⟩ (fun _ => []) = .ok ⟨[], []⟩ := by
  refine ⟨rfl, by decide, rfl⟩

/-- Claim C7 (amended): the limit parameter is an optional integer, not
validated for positivity, and when it is absent the limit defaults
to 100. -/
theorem limit_defaults_to_100 :
    Browse.limitValue ⟨none⟩ = 100
    ∧ ∀ (q : Int → List (Except DbError RawRow)),
        Service.graph ⟨none⟩ q = Service.graph ⟨some 100⟩ q :=
  ⟨rfl, fun _ => rfl⟩

/-- Claim C8: every successful `Service::vote` call returns an updates
count of exactly 1, independent of the datastore contents (in particular
of whether any value changed) and of prior calls — a second sequential
call on the same title again returns 1, not a cumulative total. -/
theorem vote_updates_always_one (db : DbVotes) (title : String)
    (fault : Option DbError) (r : DbVotes × Voted)
    (h : Service.vote db title fault = .ok r) :
    r.2.updates = 1
    ∧ ∀ (fault2 : Option DbError) (r2 : DbVotes × Voted),
        Service.vote r.1 title fault2 = .ok r2 → r2.2.updates = 1 := by
  have key : ∀ (d : DbVotes) (f : Option DbError) (r' : DbVotes × Voted),
      Service.vote d title f = .ok r' → r'.2.updates = 1 := by
    intro d f r' h'
    cases f with
    | some e => exact absurd h' (by simp [Service.vote])
    | none =>
      simp only [Service.vote, Except.ok.injEq] at h'
      rw [← h']
  exact ⟨key db fault r h, fun f2 r2 h2 => key r.1 f2 r2 h2⟩

theorem vote_updates_always_one_witness :
    (voteQuery (fun _ => none) "The Matrix", (⟨1⟩ : Voted)).2.updates = 1 :=
  (vote_updates_always_one (fun _ => none) "The Matrix" none _ rfl).1

theorem graphLoop_error (stream : List (Except DbError RawRow)) (st : AsmState)
    (h : stream.any rowFails = true) :
    ∃ e, graphLoop stream st = .error e := by
  induction stream generalizing st with
  | nil => simp at h
  | cons x rest ih =>
    cases x with
    | error e => exact ⟨e, rfl⟩
    | ok row =>
      rw [graphLoop]
      cases hm : row.movie with
      | error e => simp only [hm]; exact ⟨e, rfl⟩
      | ok m =>
        simp only [hm]
        cases hc : row.cast with
        | error e => simp only [hc]; exact ⟨e, rfl⟩
        | ok c =>
          simp only [hc]
          have hrest : rest.any rowFails = true := by
            simp only [List.any_cons, Bool.or_eq_true] at h
            rcases h with hbad | hr
            · rw [rowFails, hm, hc] at hbad
              simp [Except.isOk, Except.toBool] at hbad
            · exact hr
          exact ih _ hrest

/-- Claim C9: if the row stream fails at any point (a driver fault on
`rows.next()` or a column decode failure on any row), `Service::graph`
returns an error and no partial node/link structure is returned. -/
theorem graph_stream_failure_aborts (browse : Browse)
    (stream : List (Except DbError RawRow))
    (h : stream.any rowFails = true) :
    ∃ e, Service.graph browse (fun _ => stream) = .error e := by
  obtain ⟨e, he⟩ := graphLoop_error stream ⟨[], [], []⟩ h
  refine ⟨e, ?_⟩
  show (match graphLoop stream ⟨[], [], []⟩ with
    | Except.error e => Except.error e
    | Except.ok st => Except.ok (⟨st.nodes, st.links⟩ : BrowseResponse)) = _
  rw [he]

theorem graph_stream_failure_aborts_witness :
    (Service.graph ⟨none⟩
      (fun _ => [.ok ⟨.ok "M1", .ok ["A"]⟩, .error (.driver "net")])).isOk = false := by
  obtain ⟨e, he⟩ := graph_stream_failure_aborts ⟨none⟩
    [.ok ⟨.ok "M1", .ok ["A"]⟩, .error (.driver "net")] (by decide)
  rw [he]
  rfl

/-- Claim C10: the classifier derivation is a pure, deterministic string
transform — lower-case the relationship type, split on underscore, take
the first segment; `"ACTED_IN"` yields `"acted"` and `"DIRECTED_BY"`
yields `"directed"`. -/
theorem classifier_examples :
    classifier "ACTED_IN" = "acted" ∧ classifier "DIRECTED_BY" = "directed" := by
  exact ⟨by decide, by decide⟩

theorem graph_actor_dedup_witness :
    (2 : Nat) = 2
    ∧ ((((assemble [("M1", ["A", "B"]), ("M2", ["B"])]).nodes.filter
          fun n => n.label == "actor").map Node.title)).Nodup := by
  have h := graph_actor_dedup [("M1", ["A", "B"]), ("M2", ["B"])]
  refine ⟨?_, h.1⟩
  exact h.2 ⟨2, 0⟩ (by decide) ⟨2, 3⟩ (by decide) (by decide)

theorem graph_link_indices_valid_witness :
    (1 : Nat) < (assemble [("M", ["A"])]).nodes.length
    ∧ (0 : Nat) < (assemble [("M", ["A"])]).nodes.length :=
  graph_link_indices_valid [("M", ["A"])] ⟨1, 0⟩ (by decide)
